import Mathlib

/-!
Shallow embedding of the repository victor-iyiola/self-driving-simulation:
data.py (manifest loading and the tf.data pipeline) and model.py (the
training loop with checkpoint management).  Definitions are translated
from the source; calls into pandas, OpenCV and TensorFlow are modelled by
their documented behaviour on the inputs the repository uses.
-/

namespace SelfDriving

/-- Errors observable from data.py and the libraries it calls.  The source
defines no error classes of its own; these model the library exceptions
that escape.  The shape mismatch of the labeled decode path is the error
the specification names DecodeShapeError.  No SchemaError exists anywhere
in the code. -/
inductive DataError
  | FileNotFoundError
  | ValueError
  | TypeError
  | ReadFileError
  | DecodeShapeError
deriving DecidableEq

/-- Tensor element types that the pipeline mentions. -/
inductive DType
  | uint8
  | float32
deriving DecidableEq

/-- A decodable image file on disk: its native height, width and channel
count.  The filesystem is modelled as a partial map from paths to such
files; a missing or undecodable file maps to none. -/
structure ImgFile where
  height : Nat
  width : Nat
  chans : Nat
deriving DecidableEq

/-- data.py line 36: module constants img_size, channels = 32, 3. -/
def img_size : Nat := 32

/-- data.py line 36: the channel count constant. -/
def channels : Nat := 3

/-- A float32 value as numpy astype produces it from a CSV cell: either
NaN (from a missing field) or a numeric literal kept symbolically.  The
pipeline never computes with label values, it only moves them around, so
this representation is faithful for every claim. -/
inductive PFloat
  | nan
  | val (lit : String)
deriving DecidableEq

/-- One element produced by the labeled decode path of data.py.  imgSrc
records which file the pixel data came from (provenance stands in for the
pixel contents, which the pipeline never inspects). -/
structure LabeledEx (P L : Type) where
  imgSrc : P
  imgShape : List Nat
  imgDtype : DType
  labelShape : List Nat
  label : L
deriving DecidableEq

/-- data.py lines 55 to 75, the function named with a leading underscore
and the word parser: tf.read_file, tf.image.decode_image,
set_shape([img_size, img_size, channels]), tf.cast to float32, and
tf.reshape of the label to shape (1,).  The shape assertion fails instead
of resizing when the decoded image does not have the asserted shape; a
missing file fails at read time. -/
def parserFn {P L : Type} (fs : P → Option ImgFile) (filename : P) (label : L) :
    Except DataError (LabeledEx P L) :=
  match fs filename with
  | none => .error .ReadFileError
  | some f =>
    if [f.height, f.width, f.chans] = [img_size, img_size, channels] then
      .ok { imgSrc := filename
            imgShape := [f.height, f.width, f.chans]
            imgDtype := .float32
            labelShape := [1]
            label := label }
    else .error .DecodeShapeError

/-- The keyword arguments make_dataset reads from kwargs (data.py lines
80 to 82).  none models an absent key. -/
structure KW where
  shuffle : Option Bool := none
  buffer_size : Option Nat := none
  batch_size : Option Nat := none
deriving DecidableEq

/-- data.py line 80: the Python expression applying the operator or to
kwargs.get and True.  Python or returns the left operand when it is
truthy and the right one otherwise, so an absent key (None) gives True, a
supplied False gives True, and a supplied True gives True. -/
def kwShuffle (kw : KW) : Bool :=
  match kw.shuffle with
  | none => true
  | some b => if b then b else true

/-- data.py line 81: kwargs.get for buffer_size, with Python or 1000, so
an absent key or a supplied 0 (falsy) both give 1000. -/
def kwBufferSize (kw : KW) : Nat :=
  match kw.buffer_size with
  | none => 1000
  | some n => if n = 0 then 1000 else n

/-- data.py line 82: kwargs.get for batch_size, with Python or 128. -/
def kwBatchSize (kw : KW) : Nat :=
  match kw.batch_size with
  | none => 128
  | some n => if n = 0 then 128 else n

/-- The buffered shuffle of tf.data Dataset.shuffle: a buffer is filled
from the input, then repeatedly one buffered element, chosen by the next
random draw, is emitted and replaced from the remaining input.  The picks
list models the stream of random draws (each reduced modulo the current
buffer length); an exhausted picks stream keeps choosing index 0.  Every
step emits exactly one element, so the fuel argument, set to the total
element count by windowedShuffle, makes the recursion structural without
changing the result. -/
def shuffleGo {α : Type} : Nat → List Nat → List α → List α → List α
  | _, _, [], _ => []
  | 0, _, _ :: _, _ => []
  | fuel + 1, picks, b :: bs, rest =>
    let n := (b :: bs).length
    let i := (picks.headD 0) % n
    let chosen := (b :: bs).getD i b
    let buf1 := (b :: bs).eraseIdx i
    match rest with
    | [] => chosen :: shuffleGo fuel picks.tail buf1 []
    | r :: rs => chosen :: shuffleGo fuel picks.tail (buf1 ++ [r]) rs

/-- Dataset.shuffle with a bounded buffer, applied to a full pass. -/
def windowedShuffle {α : Type} (picks : List Nat) (bufferSize : Nat) (xs : List α) : List α :=
  shuffleGo xs.length picks (xs.take bufferSize) (xs.drop bufferSize)

/-- Dataset.batch: consecutive elements grouped into lists of size n, the
last group possibly shorter.  The n = 0 case is unreachable through
make_dataset because the kwargs defaulting turns 0 into the default.
Every step emits at least one batch, so the fuel argument, set to the
element count by batchList, makes the recursion structural without
changing the result. -/
def batchGo {α : Type} (n : Nat) : Nat → List α → List (List α)
  | _, [] => []
  | 0, _ :: _ => []
  | fuel + 1, x :: r =>
    if n = 0 then []
    else (x :: r).take n :: batchGo n fuel ((x :: r).drop n)

/-- Dataset.batch on a full pass. -/
def batchList {α : Type} (n : Nat) (xs : List α) : List (List α) :=
  batchGo n xs.length xs

/-- data.py make_dataset, labels present (lines 85 to 100):
from_tensor_slices pairs row i of features with row i of labels, map
applies the labeled decode path, then shuffle runs whenever the computed
shuffle flag is true, then batch.  A full pass of the resulting lazy
dataset is the returned list of batches; the first decode error of the
pass surfaces as the error of the pass. -/
def make_dataset_labeled {P L : Type} (fs : P → Option ImgFile) (picks : List Nat)
    (features : List P) (labels : List L) (kw : KW) :
    Except DataError (List (List (LabeledEx P L))) := do
  let exs ← (features.zip labels).mapM (fun p => parserFn fs p.1 p.2)
  let exs := if kwShuffle kw then windowedShuffle picks (kwBufferSize kw) exs else exs
  .ok (batchList (kwBatchSize kw) exs)

/-- An image as cv2.imread with the grayscale flag returns it: a two
dimensional unsigned 8 bit array of the native resolution. -/
structure GrayImg where
  height : Nat
  width : Nat
deriving DecidableEq

/-- data.py lines 43 to 45, the function named read underscore py
underscore function: cv2.imread of the filename with the grayscale
flag. -/
def read_py_function {P : Type} (fs : P → Option ImgFile) (filename : P) :
    Except DataError GrayImg :=
  match fs filename with
  | none => .error .ReadFileError
  | some f => .ok { height := f.height, width := f.width }

/-- The element the fallback resize stage would emit. -/
structure GrayEx (P : Type) where
  imgShape : List Nat
  imgSrc : P
deriving DecidableEq

/-- data.py lines 49 to 52: set_shape of three unknown dimensions then
tf.image.resize_images to the fixed size [28, 28]. -/
def resize_function {P : Type} (src : P) (_g : GrayImg) : GrayEx P :=
  { imgShape := [28, 28], imgSrc := src }

/-- The lambda at data.py lines 90 to 92 declares two positional
parameters, fname and label. -/
def unlabeledLambdaArity : Nat := 2

/-- from_tensor_slices of the bare features array (data.py line 89)
yields elements with a single component. -/
def unlabeledElemArity : Nat := 1

/-- data.py make_dataset, labels absent (lines 88 to 100).  tf.data map
unpacks the components of each element as the positional arguments of the
mapped function; when the declared arity disagrees with the element
component count it raises a TypeError while the dataset is being
constructed.  Only when the arities agree would the grayscale decode,
resize, shuffle and batch stages run. -/
def make_dataset_unlabeled {P : Type} (fs : P → Option ImgFile) (picks : List Nat)
    (features : List P) (kw : KW) :
    Except DataError (List (List (GrayEx P))) :=
  if unlabeledLambdaArity = unlabeledElemArity then do
    let gs ← features.mapM (fun f => do
      let g ← read_py_function fs f
      pure (resize_function f g))
    let gs := if kwShuffle kw then windowedShuffle picks (kwBufferSize kw) gs else gs
    .ok (batchList (kwBatchSize kw) gs)
  else .error .TypeError

/-- data.py lines 32 and 33: the column names supplied to pandas. -/
def FILE_NAMES : List String :=
  ["img_center", "img_left", "img_right", "center", "left", "right", "steering_angle"]

/-- The manifest CSV parsed into fields per row (the file has no header
row). -/
structure CsvFile where
  rows : List (List String)
deriving DecidableEq

/-- One cell of the dataframe pandas.read_csv builds when explicit names
are given: with ncols names, a row with at most ncols fields fills the
leading columns and leaves the trailing ones NaN (none); a row with more
fields than names turns the leading extras into the index, so the named
columns are the trailing fields. -/
def pdCell (ncols : Nat) (row : List String) (i : Nat) : Option String :=
  if row.length ≤ ncols then row.get? i
  else row.get? (row.length - ncols + i)

/-- pandas.read_csv(path, names) as load_data calls it: a missing file
raises FileNotFoundError; otherwise every supplied name becomes a column
no matter what the file contains, missing trailing fields read as NaN. -/
def read_csv (file : Option CsvFile) (names : List String) :
    Except DataError (List (List (Option String))) :=
  match file with
  | none => .error .FileNotFoundError
  | some f => .ok (f.rows.map (fun r => (List.range names.length).map (pdCell names.length r)))

/-- Python str applied to a dataframe cell: NaN prints as the three
letter word nan. -/
def cellStr (c : Option String) : String :=
  match c with
  | none => "nan"
  | some s => s

/-- Whether a cell parses as a float literal.  Simplified model of the
numpy float parser; the claims only exercise it on plain numerals and on
NaN cells. -/
def isFloatLit (s : String) : Bool :=
  s.toList.any Char.isDigit &&
    s.toList.all (fun c => c.isDigit || c = '.' || c = '-' || c = '+' || c = 'e')

/-- numpy astype float32 on one cell: NaN stays NaN, a numeric literal
parses, anything else raises ValueError. -/
def parseFloat32 (c : Option String) : Except DataError PFloat :=
  match c with
  | none => .ok .nan
  | some s => if isFloatLit s then .ok (.val s) else .error .ValueError

/-- The module level bindings of data.py: data_dir and the two paths
computed from it. -/
structure DataModule where
  data_dir : String
  CSV_FILENAME : String
  IMG_DIR : String
deriving DecidableEq

/-- os.path.join for the shapes of path the repository builds: an
absolute second component wins, an empty first component disappears, and
otherwise a slash separates the parts. -/
def os_path_join (a b : String) : String :=
  if b.toList.head? = some '/' then b
  else if a = "" then b
  else if a.toList.getLast? = some '/' then a ++ b
  else a ++ "/" ++ b

/-- os.path.dirname for paths without a trailing slash: everything before
the last slash, or empty when there is none (so the dirname of the
current directory dot is empty). -/
def os_path_dirname (p : String) : String :=
  if p.toList.contains '/' then
    String.mk (((p.toList.reverse.dropWhile (fun c => c != '/')).drop 1).reverse)
  else ""

/-- os.curdir. -/
def os_curdir : String := "."

/-- Module initialization of data.py lines 25 to 29, run once at import
time: CSV_FILENAME and IMG_DIR are computed from the data_dir value that
exists at import, and are never recomputed. -/
def initDataModule : DataModule :=
  let data_dir := os_path_join (os_path_dirname os_curdir) "simulated_data"
  { data_dir := data_dir
    CSV_FILENAME := os_path_join data_dir "driving_log.csv"
    IMG_DIR := os_path_join data_dir "IMG" }

/-- model.py line 234: the command line entry point assigns
data.data_dir after importing data.  Attribute assignment rebinds only
that name; CSV_FILENAME and IMG_DIR keep their import time values. -/
def setDataDir (m : DataModule) (d : String) : DataModule :=
  { m with data_dir := d }

/-- What load_data returns: the dataset of whichever decode path ran. -/
inductive DatasetResult
  | labeled (batches : List (List (LabeledEx String PFloat)))
  | unlabeled (batches : List (List (GrayEx String)))
deriving DecidableEq

/-- data.py load_data (lines 103 to 119).  With no features given it
reads the manifest at CSV_FILENAME with the fixed column names, takes
column img_center as string features and column steering_angle as
float32 labels, and builds the labeled dataset; with features given it
builds the unlabeled dataset.  csvFs models the filesystem seen by
pandas and fs the one seen by the image decoders. -/
def load_data (m : DataModule) (csvFs : String → Option CsvFile)
    (fs : String → Option ImgFile) (picks : List Nat)
    (features : Option (List String)) (kw : KW) :
    Except DataError DatasetResult :=
  match features with
  | none => do
    let df ← read_csv (csvFs m.CSV_FILENAME) FILE_NAMES
    let feats := df.map (fun row => cellStr (row.getD 0 none))
    let labels ← df.mapM (fun row => parseFloat32 (row.getD 6 none))
    let ds ← make_dataset_labeled fs picks feats labels kw
    .ok (.labeled ds)
  | some fts => do
    let ds ← make_dataset_unlabeled fs picks fts kw
    .ok (.unlabeled ds)

/-- The fields of the parsed command line that the training loop of
model.py reads for its control flow (epochs, log_every, save_every). -/
structure Args where
  epochs : Nat
  log_every : Nat
  save_every : Nat
deriving DecidableEq

/-- The mutable session state the loop drives: the global_step variable
and the model parameters.  Parameters are abstracted to the count of
optimizer updates applied on top of their origin (fresh initialization is
0); the loop only ever initializes them, restores them from a checkpoint,
or mutates them by one optimizer step, so this abstraction is exact for
every claim.  A checkpoint file stores the whole Sess, because
tf.train.Saver serializes every variable including global_step. -/
structure Sess where
  globalStep : Nat
  params : Nat
deriving DecidableEq

/-- The observable actions of one run of train (model.py lines 104 to
188), in order of occurrence.  trainStep e b st is one optimizer step in
epoch e consuming batch b of that epoch and fetching global step st;
summary e b st is one evaluation of the merged summary, which pulls batch
b of epoch e from the iterator and logs at step st; save and
interruptSave record a Saver.save with its step tag and the session state
it persisted. -/
inductive Ev
  | madeDirs
  | freshInit
  | warnRestore
  | restored (tag : Nat)
  | epochStart (e : Nat)
  | trainStep (e b st : Nat)
  | summary (e b st : Nat)
  | save (tag : Nat) (st : Sess)
  | interruptPrint
  | interruptSave (tag : Nat) (st : Sess)
deriving DecidableEq

/-- How the while loop over one epoch ends. -/
inductive EpochExit
  | done
  | interrupted
deriving DecidableEq

/-- How the whole run ends.  raisedInterrupt would mean the interrupt
escaped the loop; the code never produces it because the handler ends
with a bare break. -/
inductive RunExit
  | finished
  | interrupted
  | raisedInterrupt
deriving DecidableEq

/-- model.py lines 138 to 152: if the checkpoint directory exists, try to
restore the latest checkpoint, and on any failure log a warning and run
the variable initializer; if it does not exist, create it and run the
initializer.  restore models the combined outcome of latest_checkpoint
plus Saver.restore. -/
def restorePhase (dirExists : Bool) (restore : Except Unit Sess) : List Ev × Sess :=
  if dirExists then
    match restore with
    | .ok c => ([.restored c.globalStep], c)
    | .error _ => ([.warnRestore, .freshInit], ⟨0, 0⟩)
  else
    ([.madeDirs, .freshInit], ⟨0, 0⟩)

/-- The while True loop of one epoch (model.py lines 158 to 177), with
rem batches left on the iterator and idx the index of the next batch of
this pass.  Each iteration first observes a pending user interrupt
(cooperatively, between session calls, as the concurrency section of the
specification allows); then one session run executes train_op, consuming
one batch and incrementing global_step, and the fetched step is the
incremented value.  When the fetched step is a multiple of log_every, a
second session run evaluates the merged summary, which pulls one more
batch from the same iterator; if the iterator is exhausted at that pull
the OutOfRangeError breaks the loop before the save check runs.  When the
fetched step is a multiple of save_every, Saver.save persists the session
tagged with the step.  intr e g says whether an interrupt is observed in
epoch e when global_step is g. -/
def runEpoch (A : Args) (intr : Nat → Nat → Bool) (e : Nat) :
    Nat → Nat → Sess → List Ev × Sess × EpochExit
  | 0, _, s =>
    if intr e s.globalStep then ([], s, .interrupted) else ([], s, .done)
  | rem + 1, idx, s =>
    if intr e s.globalStep then ([], s, .interrupted)
    else
      let step := s.globalStep + 1
      let s1 : Sess := ⟨step, s.params + 1⟩
      if step % A.log_every = 0 then
        match rem with
        | 0 => ([.trainStep e idx step], s1, .done)
        | rem' + 1 =>
          let r := runEpoch A intr e rem' (idx + 2) s1
          (.trainStep e idx step :: .summary e (idx + 1) step ::
            (if step % A.save_every = 0 then Ev.save step s1 :: r.1 else r.1),
           r.2.1, r.2.2)
      else
        let r := runEpoch A intr e rem (idx + 1) s1
        (.trainStep e idx step ::
          (if step % A.save_every = 0 then Ev.save step s1 :: r.1 else r.1),
         r.2.1, r.2.2)

/-- The for loop over epochs (model.py lines 154 to 188) with k epochs
left, the next epoch index e, and nb the number of batches one fresh pass
of the dataset iterator yields.  Each round reinitializes the iterator
and runs one epoch; a KeyboardInterrupt caught around the epoch body
prints, saves once tagged with the current global_step, prints again and
breaks out of the for loop without re-raising. -/
def epochsLoop (A : Args) (nb : Nat) (intr : Nat → Nat → Bool) :
    Nat → Nat → Sess → List Ev × Sess × RunExit
  | 0, _, s => ([], s, .finished)
  | k + 1, e, s =>
    let r := runEpoch A intr e nb 0 s
    match r.2.2 with
    | .interrupted =>
      (.epochStart e :: (r.1 ++ [.interruptPrint, .interruptSave r.2.1.globalStep r.2.1]),
       r.2.1, .interrupted)
    | .done =>
      let r2 := epochsLoop A nb intr k (e + 1) r.2.1
      (.epochStart e :: (r.1 ++ r2.1), r2.2.1, r2.2.2)

/-- The outcome of one call of train: the ordered trace of observable
actions, the final session state, and how the run ended. -/
structure TrainResult where
  trace : List Ev
  sess : Sess
  exit : RunExit
deriving DecidableEq

/-- model.py train: restore or initialize, then the epoch loop. -/
def train (A : Args) (nb : Nat) (intr : Nat → Nat → Bool)
    (dirExists : Bool) (restore : Except Unit Sess) : TrainResult :=
  let r0 := restorePhase dirExists restore
  let r := epochsLoop A nb intr A.epochs 0 r0.2
  ⟨r0.1 ++ r.1, r.2.1, r.2.2⟩

/-- The steps fetched by the optimizer steps of a trace, in order. -/
def trainStepsOf : List Ev → List Nat
  | [] => []
  | .trainStep _ _ st :: r => st :: trainStepsOf r
  | _ :: r => trainStepsOf r

/-- The epoch indices started by a trace, in order. -/
def epochStartsOf : List Ev → List Nat
  | [] => []
  | .epochStart e :: r => e :: epochStartsOf r
  | _ :: r => epochStartsOf r

/-- The periodic checkpoint saves of a trace: step tag and saved state. -/
def savesOf : List Ev → List (Nat × Sess)
  | [] => []
  | .save t st :: r => (t, st) :: savesOf r
  | _ :: r => savesOf r

/-- The interrupt triggered saves of a trace. -/
def interruptSavesOf : List Ev → List (Nat × Sess)
  | [] => []
  | .interruptSave t st :: r => (t, st) :: interruptSavesOf r
  | _ :: r => interruptSavesOf r

/-- A filesystem on which every path decodes to a 32 by 32 image with 3
channels, matching the shape the labeled decode path asserts. -/
def fsAll32 : String → Option ImgFile := fun _ => some ⟨32, 32, 3⟩

/-- A filesystem on which every path decodes to a 160 by 320 image with 3
channels, the native resolution of the driving simulator. -/
def fsWide : String → Option ImgFile := fun _ => some ⟨160, 320, 3⟩

/-- C3: for every example the labeled fast path decode produces, the
image tensor has exactly the shape [img_size, img_size, channels] with
the module defaults 32, 32, 3 and dtype float32, and the label is
reshaped to a length one vector; when the decoded shape differs from the
asserted shape the path fails with the decode shape error instead of
resizing. -/
theorem C3_labeled_decode_shapes {P L : Type} (fs : P → Option ImgFile)
    (name : P) (lab : L) (f : ImgFile) (hf : fs name = some f) :
    (∀ ex, parserFn fs name lab = .ok ex →
      ex.imgShape = [img_size, img_size, channels] ∧ ex.imgDtype = .float32 ∧
      ex.labelShape = [1]) ∧
    ([f.height, f.width, f.chans] ≠ [img_size, img_size, channels] →
      parserFn fs name lab = .error .DecodeShapeError) ∧
    img_size = 32 ∧ channels = 3 := by
  refine ⟨?_, ?_, rfl, rfl⟩
  · intro ex hex
    simp only [parserFn, hf] at hex
    by_cases hsh : [f.height, f.width, f.chans] = [img_size, img_size, channels]
    · simp only [hsh, if_pos] at hex
      cases hex
      simp_all
    · simp [hsh] at hex
  · intro hsh
    simp [parserFn, hf, hsh]

/-- Witness for C3 at the native simulator resolution, where the decode
shape assertion fails. -/
theorem C3_labeled_decode_shapes_witness :
    (∀ ex, parserFn fsWide "a.png" PFloat.nan = .ok ex →
      ex.imgShape = [img_size, img_size, channels] ∧ ex.imgDtype = .float32 ∧
      ex.labelShape = [1]) ∧
    ([(160 : Nat), 320, 3] ≠ [img_size, img_size, channels] →
      parserFn fsWide "a.png" PFloat.nan = .error .DecodeShapeError) ∧
    img_size = 32 ∧ channels = 3 :=
  C3_labeled_decode_shapes fsWide "a.png" PFloat.nan ⟨160, 320, 3⟩ rfl

set_option maxRecDepth 40000 in
/-- C1: the claim expects that make_dataset with shuffle false returns
the 1000 rows in manifest order as 10 batches of 100.  The code computes
the flag as kwargs.get of shuffle, combined with True by the Python or
operator, so a supplied False still yields True and the dataset is
shuffled regardless.  With random draw 1 for the first buffered pick, the
first emitted example is row 1, not row 0, while the batch count and
sizes are as claimed and each label stays paired with its own image. -/
theorem C1_shuffle_false_is_ignored :
    kwShuffle { shuffle := some false, batch_size := some 100 } = true ∧
    (make_dataset_labeled (fun _ : Nat => some ⟨32, 32, 3⟩) [1] (List.range 1000)
        (List.replicate 1000 PFloat.nan) { shuffle := some false, batch_size := some 100 }).map
      (fun out => (out.length, out.map List.length,
        (out.head?.bind List.head?).map (fun ex => ex.imgSrc))) =
    .ok (10, List.replicate 10 100, some 1) :=
  ⟨rfl, by rfl⟩

/-- C2: the claim expects the unlabeled path to decode through OpenCV as
8 bit grayscale and resize to 28 by 28.  The mapped lambda of data.py
line 90 declares two positional parameters, but the dataset built from
the bare features array has single component elements, so tf.data raises
a TypeError while constructing the dataset and the grayscale decode and
resize never execute, through make_dataset and through load_data with
features supplied alike. -/
theorem C2_unlabeled_path_never_decodes :
    make_dataset_unlabeled fsWide [] ["a.png"] {} = .error .TypeError ∧
    load_data initDataModule (fun _ => none) fsWide [] (some ["a.png"]) {} =
      .error .TypeError ∧
    unlabeledLambdaArity = 2 ∧ unlabeledElemArity = 1 :=
  ⟨rfl, rfl, rfl, rfl⟩

/-- Counterexample for C8: a manifest whose rows have only two fields,
so five of the expected columns are absent, still loads without any
error, because read_csv with explicit names simply assigns the names and
fills the missing trailing fields with NaN. -/
theorem C8_absent_columns_do_not_fail :
    (load_data initDataModule (fun _ => some ⟨[["a.png", "0.5"]]⟩) fsAll32 [] none
      {}).map (fun _ => ()) = .ok () :=
  rfl

/-- C8 amended: load_data fails at construction time with the file not
found error when the manifest CSV is missing, and that failure surfaces
to the caller; absent columns, however, raise nothing, since pandas
assigns the supplied names regardless and no schema check exists in the
code. -/
theorem C8_missing_manifest_fails_absent_columns_pass :
    (∀ (m : DataModule) (fs : String → Option ImgFile) (picks : List Nat) (kw : KW),
      load_data m (fun _ => none) fs picks none kw = .error .FileNotFoundError) ∧
    (load_data initDataModule (fun _ => some ⟨[["a.png", "0.5"]]⟩) fsAll32 [] none
      {}).map (fun _ => ()) = .ok () :=
  ⟨fun _ _ _ _ => rfl, rfl⟩

/-- C10: whatever value the command line gives the data_dir option, the
assignment the entry point performs after import changes only the
data_dir binding; CSV_FILENAME and IMG_DIR were computed at import time
from the initial value, so load_data keeps reading the manifest at the
fixed path simulated_data slash driving_log.csv. -/
theorem C10_data_dir_assignment_has_no_effect (d : String) :
    (setDataDir initDataModule d).CSV_FILENAME = "simulated_data/driving_log.csv" ∧
    initDataModule.CSV_FILENAME = "simulated_data/driving_log.csv" ∧
    (setDataDir initDataModule d).IMG_DIR = initDataModule.IMG_DIR ∧
    ∀ (csvFs : String → Option CsvFile) (fs : String → Option ImgFile)
      (picks : List Nat) (features : Option (List String)) (kw : KW),
      load_data (setDataDir initDataModule d) csvFs fs picks features kw =
      load_data initDataModule csvFs fs picks features kw :=
  ⟨rfl, rfl, rfl, fun _ _ _ _ _ => rfl⟩

/-- trainStepsOf distributes over concatenation. -/
theorem trainStepsOf_append : ∀ (a b : List Ev),
    trainStepsOf (a ++ b) = trainStepsOf a ++ trainStepsOf b := by
  intro a b
  induction a with
  | nil => rfl
  | cons x r ih => cases x <;> simp [trainStepsOf, ih]

/-- epochStartsOf distributes over concatenation. -/
theorem epochStartsOf_append : ∀ (a b : List Ev),
    epochStartsOf (a ++ b) = epochStartsOf a ++ epochStartsOf b := by
  intro a b
  induction a with
  | nil => rfl
  | cons x r ih => cases x <;> simp [epochStartsOf, ih]

/-- savesOf distributes over concatenation. -/
theorem savesOf_append : ∀ (a b : List Ev),
    savesOf (a ++ b) = savesOf a ++ savesOf b := by
  intro a b
  induction a with
  | nil => rfl
  | cons x r ih => cases x <;> simp [savesOf, ih]

/-- interruptSavesOf distributes over concatenation. -/
theorem interruptSavesOf_append : ∀ (a b : List Ev),
    interruptSavesOf (a ++ b) = interruptSavesOf a ++ interruptSavesOf b := by
  intro a b
  induction a with
  | nil => rfl
  | cons x r ih => cases x <;> simp [interruptSavesOf, ih]

/-- Concatenating adjacent ranges of step one. -/
theorem range1_append : ∀ (m s n : Nat),
    List.range' s m ++ List.range' (s + m) n = List.range' s (m + n) := by
  intro m
  induction m with
  | zero => intro s n; simp
  | succ m ih =>
    intro s n
    have h := ih (s + 1) n
    simp only [List.range'_succ, List.cons_append]
    rw [show s + (m + 1) = (s + 1) + m by omega, h,
      show m + 1 + n = (m + n) + 1 by omega, List.range'_succ]

/-- Every event one epoch emits is an optimizer step, a summary pull or a
periodic save, all tagged with this epoch; batch indices are at least the
starting index, steps exceed the starting global step, summaries happen
at steps divisible by log_every, and saves are tagged with the global
step of the exact state they persist, divisible by save_every. -/
theorem runEpoch_classify (A : Args) (intr : Nat → Nat → Bool) (e : Nat) :
    ∀ (rem idx : Nat) (s : Sess) (ev : Ev), ev ∈ (runEpoch A intr e rem idx s).1 →
      (∃ b st, ev = .trainStep e b st ∧ idx ≤ b ∧ s.globalStep < st) ∨
      (∃ b st, ev = .summary e b st ∧ idx ≤ b ∧ s.globalStep < st ∧
        st % A.log_every = 0) ∨
      (∃ stt, ev = .save stt.globalStep stt ∧ s.globalStep < stt.globalStep ∧
        stt.globalStep % A.save_every = 0) := by
  intro rem
  induction rem using Nat.strong_induction_on with
  | _ rem ih =>
  intro idx s ev hev
  match rem with
  | 0 =>
    rw [runEpoch] at hev
    split at hev <;> simp at hev
  | Nat.succ rem =>
    rw [runEpoch] at hev
    split at hev
    · simp at hev
    · simp only at hev
      by_cases hlog : (s.globalStep + 1) % A.log_every = 0
      · rw [if_pos hlog] at hev
        match rem with
        | 0 =>
          simp at hev
          subst hev
          exact Or.inl ⟨idx, s.globalStep + 1, rfl, le_refl _, Nat.lt_succ_self _⟩
        | Nat.succ rem2 =>
          simp only [List.mem_cons] at hev
          rcases hev with rfl | rfl | hev
          · exact Or.inl ⟨idx, s.globalStep + 1, rfl, le_refl _, Nat.lt_succ_self _⟩
          · exact Or.inr (Or.inl ⟨idx + 1, s.globalStep + 1, rfl, by omega,
              Nat.lt_succ_self _, hlog⟩)
          · have hrec : ∀ ev2, ev2 ∈ (runEpoch A intr e rem2 (idx + 2)
                ⟨s.globalStep + 1, s.params + 1⟩).1 → _ :=
              fun ev2 h2 => ih rem2 (by omega) (idx + 2) ⟨s.globalStep + 1, s.params + 1⟩ ev2 h2
            by_cases hsave : (s.globalStep + 1) % A.save_every = 0
            · rw [if_pos hsave] at hev
              simp only [List.mem_cons] at hev
              rcases hev with rfl | hev
              · exact Or.inr (Or.inr ⟨⟨s.globalStep + 1, s.params + 1⟩, rfl,
                  Nat.lt_succ_self _, hsave⟩)
              · rcases hrec ev hev with ⟨b, st, rfl, hb, hst⟩ |
                  ⟨b, st, rfl, hb, hst, hm⟩ | ⟨stt, rfl, hst, hm⟩
                · exact Or.inl ⟨b, st, rfl, by omega, by simp at hst; omega⟩
                · exact Or.inr (Or.inl ⟨b, st, rfl, by omega, by simp at hst; omega, hm⟩)
                · exact Or.inr (Or.inr ⟨stt, rfl, by simp at hst; omega, hm⟩)
            · rw [if_neg hsave] at hev
              rcases hrec ev hev with ⟨b, st, rfl, hb, hst⟩ |
                ⟨b, st, rfl, hb, hst, hm⟩ | ⟨stt, rfl, hst, hm⟩
              · exact Or.inl ⟨b, st, rfl, by omega, by simp at hst; omega⟩
              · exact Or.inr (Or.inl ⟨b, st, rfl, by omega, by simp at hst; omega, hm⟩)
              · exact Or.inr (Or.inr ⟨stt, rfl, by simp at hst; omega, hm⟩)
      · rw [if_neg hlog] at hev
        have hrec : ∀ ev2, ev2 ∈ (runEpoch A intr e rem (idx + 1)
            ⟨s.globalStep + 1, s.params + 1⟩).1 → _ :=
          fun ev2 h2 => ih rem (by omega) (idx + 1) ⟨s.globalStep + 1, s.params + 1⟩ ev2 h2
        by_cases hsave : (s.globalStep + 1) % A.save_every = 0
        · rw [if_pos hsave] at hev
          simp only [List.mem_cons] at hev
          rcases hev with rfl | rfl | hev
          · exact Or.inl ⟨idx, s.globalStep + 1, rfl, le_refl _, Nat.lt_succ_self _⟩
          · exact Or.inr (Or.inr ⟨⟨s.globalStep + 1, s.params + 1⟩, rfl,
              Nat.lt_succ_self _, hsave⟩)
          · rcases hrec ev hev with ⟨b, st, rfl, hb, hst⟩ |
              ⟨b, st, rfl, hb, hst, hm⟩ | ⟨stt, rfl, hst, hm⟩
            · exact Or.inl ⟨b, st, rfl, by omega, by simp at hst; omega⟩
            · exact Or.inr (Or.inl ⟨b, st, rfl, by omega, by simp at hst; omega, hm⟩)
            · exact Or.inr (Or.inr ⟨stt, rfl, by simp at hst; omega, hm⟩)
        · rw [if_neg hsave] at hev
          simp only [List.mem_cons] at hev
          rcases hev with rfl | hev
          · exact Or.inl ⟨idx, s.globalStep + 1, rfl, le_refl _, Nat.lt_succ_self _⟩
          · rcases hrec ev hev with ⟨b, st, rfl, hb, hst⟩ |
              ⟨b, st, rfl, hb, hst, hm⟩ | ⟨stt, rfl, hst, hm⟩
            · exact Or.inl ⟨b, st, rfl, by omega, by simp at hst; omega⟩
            · exact Or.inr (Or.inl ⟨b, st, rfl, by omega, by simp at hst; omega, hm⟩)
            · exact Or.inr (Or.inr ⟨stt, rfl, by simp at hst; omega, hm⟩)

/-- One epoch advances global_step by exactly one per optimizer step:
its fetched steps form the consecutive range starting after the incoming
global step, the outgoing state adds the step count to both counters, and
at least one step runs when batches remain and no interrupt is pending. -/
theorem runEpoch_steps (A : Args) (intr : Nat → Nat → Bool) (e : Nat) :
    ∀ (rem idx : Nat) (s : Sess), ∃ K,
      trainStepsOf (runEpoch A intr e rem idx s).1 = List.range' (s.globalStep + 1) K ∧
      (runEpoch A intr e rem idx s).2.1.globalStep = s.globalStep + K ∧
      (runEpoch A intr e rem idx s).2.1.params = s.params + K ∧
      (intr e s.globalStep = false → 0 < rem → 0 < K) := by
  intro rem
  induction rem using Nat.strong_induction_on with
  | _ rem ih =>
  intro idx s
  match rem with
  | 0 =>
    refine ⟨0, ?_, ?_, ?_, fun _ h => absurd h (Nat.lt_irrefl 0)⟩ <;>
    · rw [runEpoch]
      split <;> simp [trainStepsOf]
  | Nat.succ rem =>
    by_cases hintr : intr e s.globalStep = true
    · refine ⟨0, ?_, ?_, ?_, fun hf _ => by rw [hintr] at hf; cases hf⟩ <;>
      · rw [runEpoch, if_pos hintr]
        try simp [trainStepsOf]
    · by_cases hlog : (s.globalStep + 1) % A.log_every = 0
      · match rem with
        | 0 =>
          refine ⟨1, ?_, ?_, ?_, fun _ _ => Nat.one_pos⟩ <;>
          · rw [runEpoch, if_neg hintr, if_pos hlog]
            try simp [trainStepsOf, List.range']
        | Nat.succ rem2 =>
          obtain ⟨K, htr, hg, hp, _⟩ :=
            ih rem2 (by omega) (idx + 2) ⟨s.globalStep + 1, s.params + 1⟩
          dsimp only at htr hg hp
          refine ⟨K + 1, ?_, ?_, ?_, fun _ _ => Nat.succ_pos _⟩
          · rw [runEpoch, if_neg hintr, if_pos hlog]
            dsimp only
            by_cases hsave : (s.globalStep + 1) % A.save_every = 0
            · rw [if_pos hsave]
              simp only [trainStepsOf]
              rw [htr, List.range'_succ]
            · rw [if_neg hsave]
              simp only [trainStepsOf]
              rw [htr, List.range'_succ]
          · rw [runEpoch, if_neg hintr, if_pos hlog]
            dsimp only
            rw [hg]
            omega
          · rw [runEpoch, if_neg hintr, if_pos hlog]
            dsimp only
            rw [hp]
            omega
      · obtain ⟨K, htr, hg, hp, _⟩ :=
          ih rem (by omega) (idx + 1) ⟨s.globalStep + 1, s.params + 1⟩
        dsimp only at htr hg hp
        refine ⟨K + 1, ?_, ?_, ?_, fun _ _ => Nat.succ_pos _⟩
        · rw [runEpoch, if_neg hintr, if_neg hlog]
          dsimp only
          by_cases hsave : (s.globalStep + 1) % A.save_every = 0
          · rw [if_pos hsave]
            simp only [trainStepsOf]
            rw [htr, List.range'_succ]
          · rw [if_neg hsave]
            simp only [trainStepsOf]
            rw [htr, List.range'_succ]
        · rw [runEpoch, if_neg hintr, if_neg hlog]
          dsimp only
          rw [hg]
          omega
        · rw [runEpoch, if_neg hintr, if_neg hlog]
          dsimp only
          rw [hp]
          omega

/-- Whenever one epoch evaluates the merged summary at step st on batch
b, the optimizer step that triggered it ran at the same step st on the
previous batch b minus 1, the step is a log_every multiple, and no
optimizer step of this epoch ever consumes batch b: the summary pull is
an extra batch that receives no update and no step increment. -/
theorem runEpoch_summary_pair (A : Args) (intr : Nat → Nat → Bool) (e : Nat) :
    ∀ (rem idx : Nat) (s : Sess) (b st : Nat),
      Ev.summary e b st ∈ (runEpoch A intr e rem idx s).1 →
        Ev.trainStep e (b - 1) st ∈ (runEpoch A intr e rem idx s).1 ∧
        st % A.log_every = 0 ∧
        ∀ st2, Ev.trainStep e b st2 ∉ (runEpoch A intr e rem idx s).1 := by
  intro rem
  induction rem using Nat.strong_induction_on with
  | _ rem ih =>
  intro idx s b st hmem
  match rem with
  | 0 =>
    rw [runEpoch] at hmem
    split at hmem <;> simp at hmem
  | Nat.succ rem =>
    rw [runEpoch] at hmem ⊢
    by_cases hintr : intr e s.globalStep = true
    · rw [if_pos hintr] at hmem
      simp at hmem
    · rw [if_neg hintr] at hmem ⊢
      by_cases hlog : (s.globalStep + 1) % A.log_every = 0
      · rw [if_pos hlog] at hmem ⊢
        match rem with
        | 0 =>
          simp at hmem
        | Nat.succ rem2 =>
          dsimp only at hmem ⊢
          have hcls := runEpoch_classify A intr e rem2 (idx + 2)
            ⟨s.globalStep + 1, s.params + 1⟩
          by_cases hsave : (s.globalStep + 1) % A.save_every = 0
          · rw [if_pos hsave] at hmem ⊢
            simp only [List.mem_cons] at hmem
            rcases hmem with h1 | h1 | h1 | h1
            · cases h1
            · cases h1
              refine ⟨by simp, hlog, ?_⟩
              intro st2 h2
              simp only [List.mem_cons] at h2
              rcases h2 with h3 | h3 | h3 | h3
              · simp only [Ev.trainStep.injEq] at h3
                omega
              · cases h3
              · cases h3
              · rcases hcls _ h3 with ⟨b2, st3, he, hb2, _⟩ | ⟨b2, st3, he, _⟩ | ⟨stt, he, _⟩
                · cases he
                  omega
                · cases he
                · cases he
            · cases h1
            · obtain ⟨hpair, hm, huniq⟩ := ih rem2 (by omega) (idx + 2)
                ⟨s.globalStep + 1, s.params + 1⟩ b st h1
              refine ⟨by simp [hpair], hm, ?_⟩
              intro st2 h2
              simp only [List.mem_cons] at h2
              rcases hcls _ h1 with ⟨b2, st3, he, _⟩ | ⟨b2, st3, he, hb2, _⟩ | ⟨stt, he, _⟩
              · cases he
              · cases he
                rcases h2 with h3 | h3 | h3 | h3
                · simp only [Ev.trainStep.injEq] at h3
                  omega
                · cases h3
                · cases h3
                · exact huniq st2 h3
              · cases he
          · rw [if_neg hsave] at hmem ⊢
            simp only [List.mem_cons] at hmem
            rcases hmem with h1 | h1 | h1
            · cases h1
            · cases h1
              refine ⟨by simp, hlog, ?_⟩
              intro st2 h2
              simp only [List.mem_cons] at h2
              rcases h2 with h3 | h3 | h3
              · simp only [Ev.trainStep.injEq] at h3
                omega
              · cases h3
              · rcases hcls _ h3 with ⟨b2, st3, he, hb2, _⟩ | ⟨b2, st3, he, _⟩ | ⟨stt, he, _⟩
                · cases he
                  omega
                · cases he
                · cases he
            · obtain ⟨hpair, hm, huniq⟩ := ih rem2 (by omega) (idx + 2)
                ⟨s.globalStep + 1, s.params + 1⟩ b st h1
              refine ⟨by simp [hpair], hm, ?_⟩
              intro st2 h2
              simp only [List.mem_cons] at h2
              rcases hcls _ h1 with ⟨b2, st3, he, _⟩ | ⟨b2, st3, he, hb2, _⟩ | ⟨stt, he, _⟩
              · cases he
              · cases he
                rcases h2 with h3 | h3 | h3
                · simp only [Ev.trainStep.injEq] at h3
                  omega
                · cases h3
                · exact huniq st2 h3
              · cases he
      · rw [if_neg hlog] at hmem ⊢
        dsimp only at hmem ⊢
        have hcls := runEpoch_classify A intr e rem (idx + 1)
          ⟨s.globalStep + 1, s.params + 1⟩
        by_cases hsave : (s.globalStep + 1) % A.save_every = 0
        · rw [if_pos hsave] at hmem ⊢
          simp only [List.mem_cons] at hmem
          rcases hmem with h1 | h1 | h1
          · cases h1
          · cases h1
          · obtain ⟨hpair, hm, huniq⟩ := ih rem (by omega) (idx + 1)
              ⟨s.globalStep + 1, s.params + 1⟩ b st h1
            refine ⟨by simp [hpair], hm, ?_⟩
            intro st2 h2
            simp only [List.mem_cons] at h2
            rcases hcls _ h1 with ⟨b2, st3, he, _⟩ | ⟨b2, st3, he, hb2, _⟩ | ⟨stt, he, _⟩
            · cases he
            · cases he
              rcases h2 with h3 | h3 | h3
              · simp only [Ev.trainStep.injEq] at h3
                omega
              · cases h3
              · exact huniq st2 h3
            · cases he
        · rw [if_neg hsave] at hmem ⊢
          simp only [List.mem_cons] at hmem
          rcases hmem with h1 | h1
          · cases h1
          · obtain ⟨hpair, hm, huniq⟩ := ih rem (by omega) (idx + 1)
              ⟨s.globalStep + 1, s.params + 1⟩ b st h1
            refine ⟨by simp [hpair], hm, ?_⟩
            intro st2 h2
            simp only [List.mem_cons] at h2
            rcases hcls _ h1 with ⟨b2, st3, he, _⟩ | ⟨b2, st3, he, hb2, _⟩ | ⟨stt, he, _⟩
            · cases he
            · cases he
              rcases h2 with h3 | h3
              · simp only [Ev.trainStep.injEq] at h3
                omega
              · exact huniq st2 h3
            · cases he

/-- Save policy of one epoch: after an optimizer step whose fetched step
is a save_every multiple, the session is saved tagged with that step,
except in one corner: when the step is also a log_every multiple and the
summary pull right before the save check exhausts the dataset, the
OutOfRangeError ends the epoch before the save check and no summary event
for that step exists either. -/
theorem runEpoch_save_policy (A : Args) (intr : Nat → Nat → Bool) (e : Nat) :
    ∀ (rem idx : Nat) (s : Sess) (b st : Nat),
      Ev.trainStep e b st ∈ (runEpoch A intr e rem idx s).1 →
      st % A.save_every = 0 →
        (∃ stt, Ev.save st stt ∈ (runEpoch A intr e rem idx s).1 ∧
          stt.globalStep = st) ∨
        (st % A.log_every = 0 ∧
          ∀ b2, Ev.summary e b2 st ∉ (runEpoch A intr e rem idx s).1) := by
  intro rem
  induction rem using Nat.strong_induction_on with
  | _ rem ih =>
  intro idx s b st hmem hsv
  match rem with
  | 0 =>
    rw [runEpoch] at hmem
    split at hmem <;> simp at hmem
  | Nat.succ rem =>
    rw [runEpoch] at hmem ⊢
    by_cases hintr : intr e s.globalStep = true
    · rw [if_pos hintr] at hmem
      simp at hmem
    · rw [if_neg hintr] at hmem ⊢
      by_cases hlog : (s.globalStep + 1) % A.log_every = 0
      · rw [if_pos hlog] at hmem ⊢
        match rem with
        | 0 =>
          simp only [List.mem_cons, List.not_mem_nil, or_false] at hmem
          cases hmem
          refine Or.inr ⟨hlog, ?_⟩
          intro b2 h2
          simp at h2
        | Nat.succ rem2 =>
          dsimp only at hmem ⊢
          have hcls := runEpoch_classify A intr e rem2 (idx + 2)
            ⟨s.globalStep + 1, s.params + 1⟩
          by_cases hsave : (s.globalStep + 1) % A.save_every = 0
          · rw [if_pos hsave] at hmem ⊢
            simp only [List.mem_cons] at hmem
            rcases hmem with h1 | h1 | h1 | h1
            · cases h1
              exact Or.inl ⟨⟨s.globalStep + 1, s.params + 1⟩, by simp, rfl⟩
            · cases h1
            · cases h1
            · rcases ih rem2 (by omega) (idx + 2) ⟨s.globalStep + 1, s.params + 1⟩
                b st h1 hsv with ⟨stt, hin, hg⟩ | ⟨hm, habs⟩
              · exact Or.inl ⟨stt, by simp [hin], hg⟩
              · refine Or.inr ⟨hm, ?_⟩
                intro b2 h2
                rcases hcls _ h1 with ⟨b3, st3, he, _, hst3⟩ | ⟨b3, st3, he, _⟩ | ⟨stt, he, _⟩
                · cases he
                  simp only [List.mem_cons] at h2
                  rcases h2 with h3 | h3 | h3 | h3
                  · cases h3
                  · simp only [Ev.summary.injEq] at h3
                    simp at hst3
                    omega
                  · cases h3
                  · exact habs b2 h3
                · cases he
                · cases he
          · rw [if_neg hsave] at hmem ⊢
            simp only [List.mem_cons] at hmem
            rcases hmem with h1 | h1 | h1
            · cases h1
              exact absurd hsv hsave
            · cases h1
            · rcases ih rem2 (by omega) (idx + 2) ⟨s.globalStep + 1, s.params + 1⟩
                b st h1 hsv with ⟨stt, hin, hg⟩ | ⟨hm, habs⟩
              · exact Or.inl ⟨stt, by simp [hin], hg⟩
              · refine Or.inr ⟨hm, ?_⟩
                intro b2 h2
                rcases hcls _ h1 with ⟨b3, st3, he, _, hst3⟩ | ⟨b3, st3, he, _⟩ | ⟨stt, he, _⟩
                · cases he
                  simp only [List.mem_cons] at h2
                  rcases h2 with h3 | h3 | h3
                  · cases h3
                  · simp only [Ev.summary.injEq] at h3
                    simp at hst3
                    omega
                  · exact habs b2 h3
                · cases he
                · cases he
      · rw [if_neg hlog] at hmem ⊢
        dsimp only at hmem ⊢
        by_cases hsave : (s.globalStep + 1) % A.save_every = 0
        · rw [if_pos hsave] at hmem ⊢
          simp only [List.mem_cons] at hmem
          rcases hmem with h1 | h1 | h1
          · cases h1
            exact Or.inl ⟨⟨s.globalStep + 1, s.params + 1⟩, by simp, rfl⟩
          · cases h1
          · rcases ih rem (by omega) (idx + 1) ⟨s.globalStep + 1, s.params + 1⟩
              b st h1 hsv with ⟨stt, hin, hg⟩ | ⟨hm, habs⟩
            · exact Or.inl ⟨stt, by simp [hin], hg⟩
            · refine Or.inr ⟨hm, ?_⟩
              intro b2 h2
              simp only [List.mem_cons] at h2
              rcases h2 with h3 | h3 | h3
              · cases h3
              · cases h3
              · exact habs b2 h3
        · rw [if_neg hsave] at hmem ⊢
          simp only [List.mem_cons] at hmem
          rcases hmem with h1 | h1
          · cases h1
            exact absurd hsv hsave
          · rcases ih rem (by omega) (idx + 1) ⟨s.globalStep + 1, s.params + 1⟩
              b st h1 hsv with ⟨stt, hin, hg⟩ | ⟨hm, habs⟩
            · exact Or.inl ⟨stt, by simp [hin], hg⟩
            · refine Or.inr ⟨hm, ?_⟩
              intro b2 h2
              simp only [List.mem_cons] at h2
              rcases h2 with h3 | h3
              · cases h3
              · exact habs b2 h3

/-- A trace without epochStart events extracts to an empty epoch list. -/
theorem epochStartsOf_eq_nil : ∀ (l : List Ev),
    (∀ e2, Ev.epochStart e2 ∉ l) → epochStartsOf l = [] := by
  intro l
  induction l with
  | nil => intro _; rfl
  | cons x r ih =>
    intro h
    cases x <;> simp only [epochStartsOf] <;>
      try exact ih (fun e2 hm => h e2 (List.mem_cons_of_mem _ hm))
    exact absurd (List.mem_cons_self _ _) (h _)

/-- One epoch never emits an epochStart event. -/
theorem runEpoch_no_epochStart (A : Args) (intr : Nat → Nat → Bool) (e rem idx : Nat)
    (s : Sess) : ∀ e2, Ev.epochStart e2 ∉ (runEpoch A intr e rem idx s).1 := by
  intro e2 hm
  rcases runEpoch_classify A intr e rem idx s _ hm with
    ⟨b, st, he, _⟩ | ⟨b, st, he, _⟩ | ⟨stt, he, _⟩ <;> cases he

/-- One epoch never emits an interrupt print or an interrupt save; the
interrupt handling lives in the epoch loop. -/
theorem runEpoch_no_interrupt_events (A : Args) (intr : Nat → Nat → Bool)
    (e rem idx : Nat) (s : Sess) :
    ∀ ev ∈ (runEpoch A intr e rem idx s).1,
      ev ≠ .interruptPrint ∧ ∀ g stt, ev ≠ .interruptSave g stt := by
  intro ev hm
  rcases runEpoch_classify A intr e rem idx s _ hm with
    ⟨b, st, he, _⟩ | ⟨b, st, he, _⟩ | ⟨stt, he, _⟩ <;>
    subst he <;> exact ⟨fun h => (nomatch h), fun g stt2 h => (nomatch h)⟩

/-- When the epoch loop still has rounds to run, its trace starts by
starting the next epoch. -/
theorem epochsLoop_head (A : Args) (nb : Nat) (intr : Nat → Nat → Bool)
    (k e : Nat) (s : Sess) (hk : 0 < k) :
    ∃ t, (epochsLoop A nb intr k e s).1 = Ev.epochStart e :: t := by
  match k with
  | Nat.succ k2 =>
    rw [epochsLoop]
    split
    · exact ⟨_, rfl⟩
    · exact ⟨_, rfl⟩

/-- Every event of the epoch loop is an epoch start, an optimizer step or
summary of some epoch at least the starting index, a periodic save, or
one of the two interrupt events. -/
theorem epochsLoop_classify (A : Args) (nb : Nat) (intr : Nat → Nat → Bool) :
    ∀ (k e : Nat) (s : Sess) (ev : Ev), ev ∈ (epochsLoop A nb intr k e s).1 →
      (∃ e2, ev = .epochStart e2 ∧ e ≤ e2) ∨
      (∃ e2 b st, (ev = .trainStep e2 b st ∨ ev = .summary e2 b st) ∧ e ≤ e2) ∨
      (∃ t stt, ev = .save t stt) ∨
      ev = .interruptPrint ∨ (∃ t stt, ev = .interruptSave t stt) := by
  intro k
  induction k with
  | zero =>
    intro e s ev hm
    rw [epochsLoop] at hm
    simp at hm
  | succ k ih =>
    intro e s ev hm
    rw [epochsLoop] at hm
    split at hm <;>
    · simp only [List.mem_cons, List.mem_append] at hm
      rcases hm with rfl | hm | hm
      · exact Or.inl ⟨e, rfl, le_refl e⟩
      · rcases runEpoch_classify A intr e nb 0 s _ hm with
          ⟨b, st, rfl, _⟩ | ⟨b, st, rfl, _, _, hmod⟩ | ⟨stt, rfl, _⟩
        · exact Or.inr (Or.inl ⟨e, b, st, Or.inl rfl, le_refl e⟩)
        · exact Or.inr (Or.inl ⟨e, b, st, Or.inr rfl, le_refl e⟩)
        · exact Or.inr (Or.inr (Or.inl ⟨stt.globalStep, stt, rfl⟩))
      · first
        | (rcases hm with rfl | rfl | hm
           · exact Or.inr (Or.inr (Or.inr (Or.inl rfl)))
           · exact Or.inr (Or.inr (Or.inr (Or.inr ⟨_, _, rfl⟩)))
           · simp at hm)
        | (rcases ih (e + 1) _ ev hm with ⟨e2, rfl, he2⟩ |
            ⟨e2, b, st, hor, he2⟩ | h | h | h
           · exact Or.inl ⟨e2, rfl, by omega⟩
           · exact Or.inr (Or.inl ⟨e2, b, st, hor, by omega⟩)
           · exact Or.inr (Or.inr (Or.inl h))
           · exact Or.inr (Or.inr (Or.inr (Or.inl h)))
           · exact Or.inr (Or.inr (Or.inr (Or.inr h))))

/-- Across the whole epoch loop the fetched steps are consecutive from
the incoming global step plus one, and the final global step adds the
total step count; the count is positive when at least one epoch with at
least one batch runs without an immediately pending interrupt. -/
theorem epochsLoop_steps (A : Args) (nb : Nat) (intr : Nat → Nat → Bool) :
    ∀ (k e : Nat) (s : Sess), ∃ K,
      trainStepsOf (epochsLoop A nb intr k e s).1 = List.range' (s.globalStep + 1) K ∧
      (epochsLoop A nb intr k e s).2.1.globalStep = s.globalStep + K ∧
      (0 < k → intr e s.globalStep = false → 0 < nb → 0 < K) := by
  intro k
  induction k with
  | zero =>
    intro e s
    refine ⟨0, ?_, ?_, fun h _ _ => absurd h (Nat.lt_irrefl 0)⟩ <;>
    · rw [epochsLoop]
      simp [trainStepsOf]
  | succ k ih =>
    intro e s
    obtain ⟨K1, htr1, hg1, _, hpos1⟩ := runEpoch_steps A intr e nb 0 s
    rw [epochsLoop]
    cases hx : (runEpoch A intr e nb 0 s).2.2 with
    | interrupted =>
      refine ⟨K1, ?_, ?_, fun _ hi hn => hpos1 hi hn⟩
      · dsimp only
        simp only [trainStepsOf, trainStepsOf_append, List.append_nil]
        exact htr1
      · dsimp only
        exact hg1
    | done =>
      obtain ⟨K2, htr2, hg2, _⟩ := ih (e + 1) (runEpoch A intr e nb 0 s).2.1
      rw [hg1] at htr2 hg2
      refine ⟨K1 + K2, ?_, ?_, fun _ hi hn => by have := hpos1 hi hn; omega⟩
      · dsimp only
        simp only [trainStepsOf, trainStepsOf_append]
        rw [htr1, htr2,
          show s.globalStep + K1 + 1 = (s.globalStep + 1) + K1 from by omega]
        exact range1_append K1 (s.globalStep + 1) K2
      · dsimp only
        rw [hg2]
        omega

/-- The epoch loop starts epochs with consecutive indices from its first
epoch index, one start per round it actually enters. -/
theorem epochsLoop_epochStarts (A : Args) (nb : Nat) (intr : Nat → Nat → Bool) :
    ∀ (k e : Nat) (s : Sess), ∃ M,
      epochStartsOf (epochsLoop A nb intr k e s).1 = List.range' e M ∧
      M ≤ k ∧ (0 < k → 0 < M) := by
  intro k
  induction k with
  | zero =>
    intro e s
    refine ⟨0, ?_, le_refl 0, fun h => absurd h (Nat.lt_irrefl 0)⟩
    rw [epochsLoop]
    simp [epochStartsOf]
  | succ k ih =>
    intro e s
    have hnil : epochStartsOf (runEpoch A intr e nb 0 s).1 = [] :=
      epochStartsOf_eq_nil _ (runEpoch_no_epochStart A intr e nb 0 s)
    rw [epochsLoop]
    cases hx : (runEpoch A intr e nb 0 s).2.2 with
    | interrupted =>
      refine ⟨1, ?_, by omega, fun _ => Nat.one_pos⟩
      dsimp only
      simp [epochStartsOf, epochStartsOf_append, hnil, List.range']
    | done =>
      obtain ⟨M, hM, hMle, _⟩ := ih (e + 1) (runEpoch A intr e nb 0 s).2.1
      refine ⟨M + 1, ?_, by omega, fun _ => Nat.succ_pos _⟩
      dsimp only
      simp only [epochStartsOf, epochStartsOf_append, hnil, List.nil_append]
      rw [hM, List.range'_succ]

/-- The epoch loop returns normally: it never re-raises the interrupt. -/
theorem epochsLoop_never_raises (A : Args) (nb : Nat) (intr : Nat → Nat → Bool) :
    ∀ (k e : Nat) (s : Sess), (epochsLoop A nb intr k e s).2.2 ≠ .raisedInterrupt := by
  intro k
  induction k with
  | zero =>
    intro e s h
    rw [epochsLoop] at h
    cases h
  | succ k ih =>
    intro e s h
    rw [epochsLoop] at h
    cases hx : (runEpoch A intr e nb 0 s).2.2 with
    | interrupted =>
      rw [hx] at h
      dsimp only at h
      cases h
    | done =>
      rw [hx] at h
      dsimp only at h
      exact ih (e + 1) _ h

/-- The restore phase emits only its own four kinds of event. -/
theorem restorePhase_mem : ∀ (dirExists : Bool) (restore : Except Unit Sess),
    ∀ ev ∈ (restorePhase dirExists restore).1,
      ev = .madeDirs ∨ ev = .freshInit ∨ ev = .warnRestore ∨ ∃ t, ev = .restored t := by
  intro dirExists restore ev hm
  cases dirExists with
  | false =>
    simp [restorePhase] at hm
    rcases hm with rfl | rfl
    · exact Or.inl rfl
    · exact Or.inr (Or.inl rfl)
  | true =>
    cases restore with
    | error u =>
      simp [restorePhase] at hm
      rcases hm with rfl | rfl
      · exact Or.inr (Or.inr (Or.inl rfl))
      · exact Or.inr (Or.inl rfl)
    | ok c =>
      simp [restorePhase] at hm
      subst hm
      exact Or.inr (Or.inr (Or.inr ⟨c.globalStep, rfl⟩))

/-- When the epoch loop ends as interrupted, its trace ends with exactly
one interrupt print followed by exactly one interrupt save, tagged with
the final global step and persisting the final session state, and nothing
runs after them; the prefix contains no interrupt event. -/
theorem epochsLoop_interrupted (A : Args) (nb : Nat) (intr : Nat → Nat → Bool) :
    ∀ (k e : Nat) (s : Sess),
      (epochsLoop A nb intr k e s).2.2 = .interrupted →
      ∃ t, (epochsLoop A nb intr k e s).1 =
          t ++ [Ev.interruptPrint,
            Ev.interruptSave (epochsLoop A nb intr k e s).2.1.globalStep
              (epochsLoop A nb intr k e s).2.1] ∧
        ∀ ev ∈ t, ev ≠ .interruptPrint ∧ ∀ g stt, ev ≠ .interruptSave g stt := by
  intro k
  induction k with
  | zero =>
    intro e s h
    rw [epochsLoop] at h
    cases h
  | succ k ih =>
    intro e s h
    rw [epochsLoop] at h ⊢
    cases hx : (runEpoch A intr e nb 0 s).2.2 with
    | interrupted =>
      rw [hx] at h
      dsimp only at h ⊢
      refine ⟨Ev.epochStart e :: (runEpoch A intr e nb 0 s).1, by simp, ?_⟩
      intro ev hm
      simp only [List.mem_cons] at hm
      rcases hm with rfl | hm
      · exact ⟨fun hh => (nomatch hh), fun g stt hh => (nomatch hh)⟩
      · exact runEpoch_no_interrupt_events A intr e nb 0 s ev hm
    | done =>
      rw [hx] at h
      dsimp only at h ⊢
      obtain ⟨t2, ht2, hpres⟩ := ih (e + 1) (runEpoch A intr e nb 0 s).2.1 h
      refine ⟨Ev.epochStart e :: ((runEpoch A intr e nb 0 s).1 ++ t2), ?_, ?_⟩
      · rw [ht2]
        simp
      · intro ev hm
        simp only [List.mem_cons, List.mem_append] at hm
        rcases hm with rfl | hm | hm
        · exact ⟨fun hh => (nomatch hh), fun g stt hh => (nomatch hh)⟩
        · exact runEpoch_no_interrupt_events A intr e nb 0 s ev hm
        · exact hpres ev hm

/-- Summary pairing across the whole epoch loop: every summary event was
triggered by an optimizer step at the same step value on the previous
batch of the same epoch, and the batch the summary consumed is never
trained on in that epoch. -/
theorem epochsLoop_summary_pair (A : Args) (nb : Nat) (intr : Nat → Nat → Bool) :
    ∀ (k e : Nat) (s : Sess) (e2 b st : Nat),
      Ev.summary e2 b st ∈ (epochsLoop A nb intr k e s).1 →
        Ev.trainStep e2 (b - 1) st ∈ (epochsLoop A nb intr k e s).1 ∧
        st % A.log_every = 0 ∧
        ∀ st2, Ev.trainStep e2 b st2 ∉ (epochsLoop A nb intr k e s).1 := by
  intro k
  induction k with
  | zero =>
    intro e s e2 b st hm
    rw [epochsLoop] at hm
    simp at hm
  | succ k ih =>
    intro e s e2 b st hm
    rw [epochsLoop] at hm ⊢
    cases hx : (runEpoch A intr e nb 0 s).2.2 with
    | interrupted =>
      rw [hx] at hm
      dsimp only at hm ⊢
      simp only [List.mem_cons, List.mem_append] at hm
      rcases hm with h1 | h1 | h1
      · cases h1
      · rcases runEpoch_classify A intr e nb 0 s _ h1 with
          ⟨b2, st2, he, _⟩ | ⟨b2, st2, he, _⟩ | ⟨stt, he, _⟩
        · cases he
        · cases he
          obtain ⟨hpair, hmod, huniq⟩ := runEpoch_summary_pair A intr e nb 0 s b st h1
          refine ⟨by simp [hpair], hmod, ?_⟩
          intro st2 hq
          simp only [List.mem_cons, List.mem_append, List.not_mem_nil, or_false] at hq
          rcases hq with h3 | h3 | h3 | h3
          · cases h3
          · exact huniq st2 h3
          · cases h3
          · cases h3
        · cases he
      · simp only [List.mem_cons, List.not_mem_nil, or_false] at h1
        rcases h1 with h4 | h4 <;> cases h4
    | done =>
      rw [hx] at hm
      dsimp only at hm ⊢
      simp only [List.mem_cons, List.mem_append] at hm
      rcases hm with h1 | h1 | h1
      · cases h1
      · rcases runEpoch_classify A intr e nb 0 s _ h1 with
          ⟨b2, st2, he, _⟩ | ⟨b2, st2, he, _⟩ | ⟨stt, he, _⟩
        · cases he
        · cases he
          obtain ⟨hpair, hmod, huniq⟩ := runEpoch_summary_pair A intr e nb 0 s b st h1
          refine ⟨by simp [hpair], hmod, ?_⟩
          intro st2 hq
          simp only [List.mem_cons, List.mem_append] at hq
          rcases hq with h3 | h3 | h3
          · cases h3
          · exact huniq st2 h3
          · rcases epochsLoop_classify A nb intr k (e + 1) _ _ h3 with
              ⟨e3, he3, _⟩ | ⟨e3, b3, st3, hor, hge⟩ | ⟨t3, stt3, he3⟩ | he3 | ⟨t3, stt3, he3⟩
            · cases he3
            · rcases hor with he4 | he4
              · cases he4
                omega
              · cases he4
            · cases he3
            · cases he3
            · cases he3
        · cases he
      · have hge2 : e + 1 ≤ e2 := by
          rcases epochsLoop_classify A nb intr k (e + 1) _ _ h1 with
            ⟨e3, he3, _⟩ | ⟨e3, b3, st3, hor, hge⟩ | ⟨t3, stt3, he3⟩ | he3 | ⟨t3, stt3, he3⟩
          · cases he3
          · rcases hor with he4 | he4
            · cases he4
            · cases he4
              exact hge
          · cases he3
          · cases he3
          · cases he3
        obtain ⟨hpair, hmod, huniq⟩ := ih (e + 1) _ e2 b st h1
        refine ⟨by simp [hpair], hmod, ?_⟩
        intro st2 hq
        simp only [List.mem_cons, List.mem_append] at hq
        rcases hq with h3 | h3 | h3
        · cases h3
        · rcases runEpoch_classify A intr e nb 0 s _ h3 with
            ⟨b4, st4, he5, _⟩ | ⟨b4, st4, he5, _⟩ | ⟨stt4, he5, _⟩
          · cases he5
            omega
          · cases he5
          · cases he5
        · exact huniq st2 h3

/-- Save policy across the whole epoch loop: every optimizer step at a
save_every multiple is followed by a save of the full session tagged with
that step, unless the step is also a summary step whose extra batch pull
exhausted the dataset, in which case no summary event for that step and
epoch exists and no save happened for it. -/
theorem epochsLoop_save_policy (A : Args) (nb : Nat) (intr : Nat → Nat → Bool) :
    ∀ (k e : Nat) (s : Sess) (e2 b st : Nat),
      Ev.trainStep e2 b st ∈ (epochsLoop A nb intr k e s).1 →
      st % A.save_every = 0 →
        (∃ stt, Ev.save st stt ∈ (epochsLoop A nb intr k e s).1 ∧
          stt.globalStep = st) ∨
        (st % A.log_every = 0 ∧
          ∀ b2, Ev.summary e2 b2 st ∉ (epochsLoop A nb intr k e s).1) := by
  intro k
  induction k with
  | zero =>
    intro e s e2 b st hm _
    rw [epochsLoop] at hm
    simp at hm
  | succ k ih =>
    intro e s e2 b st hm hsv
    rw [epochsLoop] at hm ⊢
    cases hx : (runEpoch A intr e nb 0 s).2.2 with
    | interrupted =>
      rw [hx] at hm
      dsimp only at hm ⊢
      simp only [List.mem_cons, List.mem_append] at hm
      rcases hm with h1 | h1 | h1
      · cases h1
      · rcases runEpoch_classify A intr e nb 0 s _ h1 with
          ⟨b2, st2, he, _⟩ | ⟨b2, st2, he, _⟩ | ⟨stt, he, _⟩
        · cases he
          rcases runEpoch_save_policy A intr e nb 0 s b st h1 hsv with
            ⟨stt, hin, hg⟩ | ⟨hmod, habs⟩
          · exact Or.inl ⟨stt, by simp [hin], hg⟩
          · refine Or.inr ⟨hmod, ?_⟩
            intro b2 hq
            simp only [List.mem_cons, List.mem_append, List.not_mem_nil, or_false] at hq
            rcases hq with h3 | h3 | h3 | h3
            · cases h3
            · exact habs b2 h3
            · cases h3
            · cases h3
        · cases he
        · cases he
      · simp only [List.mem_cons, List.not_mem_nil, or_false] at h1
        rcases h1 with h4 | h4 <;> cases h4
    | done =>
      rw [hx] at hm
      dsimp only at hm ⊢
      simp only [List.mem_cons, List.mem_append] at hm
      rcases hm with h1 | h1 | h1
      · cases h1
      · rcases runEpoch_classify A intr e nb 0 s _ h1 with
          ⟨b2, st2, he, _⟩ | ⟨b2, st2, he, _⟩ | ⟨stt, he, _⟩
        · cases he
          rcases runEpoch_save_policy A intr e nb 0 s b st h1 hsv with
            ⟨stt, hin, hg⟩ | ⟨hmod, habs⟩
          · exact Or.inl ⟨stt, by simp [hin], hg⟩
          · refine Or.inr ⟨hmod, ?_⟩
            intro b2 hq
            simp only [List.mem_cons, List.mem_append] at hq
            rcases hq with h3 | h3 | h3
            · cases h3
            · exact habs b2 h3
            · rcases epochsLoop_classify A nb intr k (e + 1) _ _ h3 with
                ⟨e3, he3, _⟩ | ⟨e3, b3, st3, hor, hge⟩ | ⟨t3, stt3, he3⟩ | he3 | ⟨t3, stt3, he3⟩
              · cases he3
              · rcases hor with he4 | he4
                · cases he4
                · cases he4
                  omega
              · cases he3
              · cases he3
              · cases he3
        · cases he
        · cases he
      · have hge2 : e + 1 ≤ e2 := by
          rcases epochsLoop_classify A nb intr k (e + 1) _ _ h1 with
            ⟨e3, he3, _⟩ | ⟨e3, b3, st3, hor, hge⟩ | ⟨t3, stt3, he3⟩ | he3 | ⟨t3, stt3, he3⟩
          · cases he3
          · rcases hor with he4 | he4
            · cases he4
              exact hge
            · cases he4
          · cases he3
          · cases he3
          · cases he3
        rcases ih (e + 1) _ e2 b st h1 hsv with ⟨stt, hin, hg⟩ | ⟨hmod, habs⟩
        · exact Or.inl ⟨stt, by simp [hin], hg⟩
        · refine Or.inr ⟨hmod, ?_⟩
          intro b2 hq
          simp only [List.mem_cons, List.mem_append] at hq
          rcases hq with h3 | h3 | h3
          · cases h3
          · rcases runEpoch_classify A intr e nb 0 s _ h3 with
              ⟨b4, st4, he5, _⟩ | ⟨b4, st4, he5, _⟩ | ⟨stt4, he5, _⟩
            · cases he5
            · cases he5
              omega
            · cases he5
          · exact habs b2 h3

/-- Every periodic save of the epoch loop is tagged with the global step
of the exact session state it persists. -/
theorem epochsLoop_save_tags (A : Args) (nb : Nat) (intr : Nat → Nat → Bool) :
    ∀ (k e : Nat) (s : Sess) (t : Nat) (stt : Sess),
      Ev.save t stt ∈ (epochsLoop A nb intr k e s).1 → t = stt.globalStep := by
  intro k
  induction k with
  | zero =>
    intro e s t stt hm
    rw [epochsLoop] at hm
    simp at hm
  | succ k ih =>
    intro e s t stt hm
    rw [epochsLoop] at hm
    cases hx : (runEpoch A intr e nb 0 s).2.2 with
    | interrupted =>
      rw [hx] at hm
      dsimp only at hm
      simp only [List.mem_cons, List.mem_append, List.not_mem_nil, or_false] at hm
      rcases hm with h1 | h1 | h1 | h1
      · cases h1
      · rcases runEpoch_classify A intr e nb 0 s _ h1 with
          ⟨b2, st2, he, _⟩ | ⟨b2, st2, he, _⟩ | ⟨stt2, he, _⟩
        · cases he
        · cases he
        · cases he
          rfl
      · cases h1
      · cases h1
    | done =>
      rw [hx] at hm
      dsimp only at hm
      simp only [List.mem_cons, List.mem_append] at hm
      rcases hm with h1 | h1 | h1
      · cases h1
      · rcases runEpoch_classify A intr e nb 0 s _ h1 with
          ⟨b2, st2, he, _⟩ | ⟨b2, st2, he, _⟩ | ⟨stt2, he, _⟩
        · cases he
        · cases he
        · cases he
          rfl
      · exact ih (e + 1) _ t stt h1

/-- C4: when the checkpoint directory exists but restoring the latest
checkpoint fails, the loop logs a warning, runs the global variable
initializer so both counters start fresh at zero, proceeds into epoch 0,
and the run returns normally: a restore failure is never fatal. -/
theorem C4_restore_failure_recovers (A : Args) (nb : Nat)
    (intr : Nat → Nat → Bool) (hE : 0 < A.epochs) :
    restorePhase true (.error ()) = ([.warnRestore, .freshInit], ⟨0, 0⟩) ∧
    (train A nb intr true (.error ())).trace.take 2 = [.warnRestore, .freshInit] ∧
    Ev.epochStart 0 ∈ (train A nb intr true (.error ())).trace ∧
    (train A nb intr true (.error ())).exit ≠ .raisedInterrupt := by
  refine ⟨rfl, rfl, ?_, ?_⟩
  · obtain ⟨t, ht⟩ := epochsLoop_head A nb intr A.epochs 0 ⟨0, 0⟩ hE
    show Ev.epochStart 0 ∈ [Ev.warnRestore, Ev.freshInit] ++
      (epochsLoop A nb intr A.epochs 0 ⟨0, 0⟩).1
    rw [ht]
    simp
  · exact epochsLoop_never_raises A nb intr A.epochs 0 ⟨0, 0⟩

/-- Witness for C4 at a concrete configuration. -/
theorem C4_restore_failure_recovers_witness :
    restorePhase true (.error ()) = ([.warnRestore, .freshInit], ⟨0, 0⟩) ∧
    (train ⟨1, 2, 5⟩ 1 (fun _ _ => false) true (.error ())).trace.take 2 =
      [.warnRestore, .freshInit] ∧
    Ev.epochStart 0 ∈ (train ⟨1, 2, 5⟩ 1 (fun _ _ => false) true (.error ())).trace ∧
    (train ⟨1, 2, 5⟩ 1 (fun _ _ => false) true (.error ())).exit ≠ .raisedInterrupt :=
  C4_restore_failure_recovers ⟨1, 2, 5⟩ 1 (fun _ _ => false) (by decide)

/-- C5: whenever a user interrupt ends the run, the trace ends with the
confirmation print followed by exactly one extra checkpoint save, tagged
with the global step current at the interrupt and persisting the final
session state; nothing happens after it, so the next epoch never starts,
and the run returns as interrupted instead of re-raising. -/
theorem C5_interrupt_saves_once_and_stops (A : Args) (nb : Nat)
    (intr : Nat → Nat → Bool) (dirExists : Bool) (restore : Except Unit Sess)
    (h : (train A nb intr dirExists restore).exit = .interrupted) :
    ∃ t, (train A nb intr dirExists restore).trace =
        t ++ [Ev.interruptPrint,
          Ev.interruptSave (train A nb intr dirExists restore).sess.globalStep
            (train A nb intr dirExists restore).sess] ∧
      (∀ ev ∈ t, ev ≠ .interruptPrint ∧ ∀ g stt, ev ≠ .interruptSave g stt) ∧
      (train A nb intr dirExists restore).exit ≠ .raisedInterrupt := by
  have h2 : (epochsLoop A nb intr A.epochs 0 (restorePhase dirExists restore).2).2.2
      = .interrupted := h
  obtain ⟨t2, ht2, hpres⟩ :=
    epochsLoop_interrupted A nb intr A.epochs 0 (restorePhase dirExists restore).2 h2
  refine ⟨(restorePhase dirExists restore).1 ++ t2, ?_, ?_, ?_⟩
  · show (restorePhase dirExists restore).1 ++
        (epochsLoop A nb intr A.epochs 0 (restorePhase dirExists restore).2).1 =
      ((restorePhase dirExists restore).1 ++ t2) ++
        [Ev.interruptPrint,
          Ev.interruptSave
            (epochsLoop A nb intr A.epochs 0
              (restorePhase dirExists restore).2).2.1.globalStep
            (epochsLoop A nb intr A.epochs 0 (restorePhase dirExists restore).2).2.1]
    rw [ht2, List.append_assoc]
  · intro ev hm
    rcases List.mem_append.mp hm with hm2 | hm2
    · rcases restorePhase_mem dirExists restore ev hm2 with rfl | rfl | rfl | ⟨tg, rfl⟩ <;>
        exact ⟨fun hh => (nomatch hh), fun g stt hh => (nomatch hh)⟩
    · exact hpres ev hm2
  · rw [h]
    intro hh
    cases hh

/-- Witness for C5: an interrupt observed at epoch 0, global step 1. -/
theorem C5_interrupt_saves_once_and_stops_witness :
    ∃ t, (train ⟨5, 2, 5⟩ 3 (fun e g => e == 0 && g == 1) true (.error ())).trace =
        t ++ [Ev.interruptPrint,
          Ev.interruptSave
            (train ⟨5, 2, 5⟩ 3 (fun e g => e == 0 && g == 1) true (.error ())).sess.globalStep
            (train ⟨5, 2, 5⟩ 3 (fun e g => e == 0 && g == 1) true (.error ())).sess] ∧
      (∀ ev ∈ t, ev ≠ .interruptPrint ∧ ∀ g stt, ev ≠ .interruptSave g stt) ∧
      (train ⟨5, 2, 5⟩ 3 (fun e g => e == 0 && g == 1) true (.error ())).exit ≠
        .raisedInterrupt :=
  C5_interrupt_saves_once_and_stops ⟨5, 2, 5⟩ 3 (fun e g => e == 0 && g == 1) true
    (.error ()) (by decide)

/-- C6: after restoring a checkpoint saved at global step S, training
resumes with fetched steps S+1, S+2, ... in order, exactly one increment
per optimizer step, never resetting to zero; the epoch counter is not
restored and restarts at 0, since only the session state in the
checkpoint is carried over. -/
theorem C6_global_step_resumes (A : Args) (nb : Nat) (intr : Nat → Nat → Bool)
    (S p : Nat) (hE : 0 < A.epochs) (hnb : 0 < nb) (hi : intr 0 S = false) :
    ∃ K M, 0 < K ∧ 0 < M ∧
      trainStepsOf (train A nb intr true (.ok ⟨S, p⟩)).trace = List.range' (S + 1) K ∧
      epochStartsOf (train A nb intr true (.ok ⟨S, p⟩)).trace = List.range' 0 M ∧
      (train A nb intr true (.ok ⟨S, p⟩)).sess.globalStep = S + K := by
  obtain ⟨K, htr, hg, hpos⟩ := epochsLoop_steps A nb intr A.epochs 0 ⟨S, p⟩
  obtain ⟨M, hM, _, hMpos⟩ := epochsLoop_epochStarts A nb intr A.epochs 0 ⟨S, p⟩
  refine ⟨K, M, hpos hE hi hnb, hMpos hE, ?_, ?_, ?_⟩
  · show trainStepsOf (Ev.restored S :: (epochsLoop A nb intr A.epochs 0 ⟨S, p⟩).1) =
      List.range' (S + 1) K
    simp only [trainStepsOf]
    exact htr
  · show epochStartsOf (Ev.restored S :: (epochsLoop A nb intr A.epochs 0 ⟨S, p⟩).1) =
      List.range' 0 M
    simp only [epochStartsOf]
    exact hM
  · exact hg

/-- Witness for C6: resuming from a checkpoint at step 5. -/
theorem C6_global_step_resumes_witness :
    ∃ K M, 0 < K ∧ 0 < M ∧
      trainStepsOf (train ⟨1, 2, 5⟩ 1 (fun _ _ => false) true (.ok ⟨5, 7⟩)).trace =
        List.range' (5 + 1) K ∧
      epochStartsOf (train ⟨1, 2, 5⟩ 1 (fun _ _ => false) true (.ok ⟨5, 7⟩)).trace =
        List.range' 0 M ∧
      (train ⟨1, 2, 5⟩ 1 (fun _ _ => false) true (.ok ⟨5, 7⟩)).sess.globalStep = 5 + K :=
  C6_global_step_resumes ⟨1, 2, 5⟩ 1 (fun _ _ => false) 5 7 (by decide) (by decide) rfl

/-- Counterexample for C7: with one batch per epoch and log_every and
save_every both 1, the only optimizer step fetches step 1, a save_every
multiple, yet the summary evaluation that runs first pulls another batch,
hits the end of the dataset, and the OutOfRangeError breaks the epoch
before the save check: the run performs no checkpoint save at all. -/
theorem C7_save_skipped_on_summary_exhaustion :
    Ev.trainStep 0 0 1 ∈ (train ⟨1, 1, 1⟩ 1 (fun _ _ => false) true (.error ())).trace ∧
    1 % (⟨1, 1, 1⟩ : Args).save_every = 0 ∧
    savesOf (train ⟨1, 1, 1⟩ 1 (fun _ _ => false) true (.error ())).trace = [] ∧
    interruptSavesOf (train ⟨1, 1, 1⟩ 1 (fun _ _ => false) true (.error ())).trace = [] := by
  refine ⟨?_, rfl, rfl, rfl⟩
  decide

/-- C7 amended: at every step whose fetched global step is a save_every
multiple the full session state, parameters and global_step together, is
saved tagged with that global step value, except when that step is also a
log_every multiple and the summary pull at that step exhausts the
dataset, which ends the epoch before the save check (then no summary
event exists for that step either); every save is tagged with the global
step of the state it persists, and when the checkpoint directory does not
exist it is created at startup, before any save can happen. -/
theorem C7_amended_save_policy (A : Args) (nb : Nat) (intr : Nat → Nat → Bool)
    (dirExists : Bool) (restore : Except Unit Sess) :
    (∀ e2 b st, Ev.trainStep e2 b st ∈ (train A nb intr dirExists restore).trace →
      st % A.save_every = 0 →
        (∃ stt, Ev.save st stt ∈ (train A nb intr dirExists restore).trace ∧
          stt.globalStep = st) ∨
        (st % A.log_every = 0 ∧
          ∀ b2, Ev.summary e2 b2 st ∉ (train A nb intr dirExists restore).trace)) ∧
    (∀ t stt, Ev.save t stt ∈ (train A nb intr dirExists restore).trace →
      t = stt.globalStep) ∧
    (dirExists = false → (train A nb intr dirExists restore).trace.take 1 = [.madeDirs]) := by
  refine ⟨?_, ?_, ?_⟩
  · intro e2 b st hm hsv
    have hm2 : Ev.trainStep e2 b st ∈ (restorePhase dirExists restore).1 ++
        (epochsLoop A nb intr A.epochs 0 (restorePhase dirExists restore).2).1 := hm
    rcases List.mem_append.mp hm2 with h1 | h1
    · rcases restorePhase_mem dirExists restore _ h1 with he | he | he | ⟨tg, he⟩ <;> cases he
    · rcases epochsLoop_save_policy A nb intr A.epochs 0
        (restorePhase dirExists restore).2 e2 b st h1 hsv with
        ⟨stt, hin, hg⟩ | ⟨hmod, habs⟩
      · refine Or.inl ⟨stt, ?_, hg⟩
        show Ev.save st stt ∈ (restorePhase dirExists restore).1 ++
          (epochsLoop A nb intr A.epochs 0 (restorePhase dirExists restore).2).1
        exact List.mem_append.mpr (Or.inr hin)
      · refine Or.inr ⟨hmod, ?_⟩
        intro b2 hq
        have hq2 : Ev.summary e2 b2 st ∈ (restorePhase dirExists restore).1 ++
            (epochsLoop A nb intr A.epochs 0 (restorePhase dirExists restore).2).1 := hq
        rcases List.mem_append.mp hq2 with h3 | h3
        · rcases restorePhase_mem dirExists restore _ h3 with he | he | he | ⟨tg, he⟩ <;>
            cases he
        · exact habs b2 h3
  · intro t stt hm
    have hm2 : Ev.save t stt ∈ (restorePhase dirExists restore).1 ++
        (epochsLoop A nb intr A.epochs 0 (restorePhase dirExists restore).2).1 := hm
    rcases List.mem_append.mp hm2 with h1 | h1
    · rcases restorePhase_mem dirExists restore _ h1 with he | he | he | ⟨tg, he⟩ <;> cases he
    · exact epochsLoop_save_tags A nb intr A.epochs 0
        (restorePhase dirExists restore).2 t stt h1
  · intro hd
    subst hd
    rfl

/-- Witness for the amended C7: at step 1 with save_every 1 and a batch
still available, the save does happen. -/
theorem C7_amended_save_policy_witness :
    (∃ stt, Ev.save 1 stt ∈ (train ⟨1, 3, 1⟩ 2 (fun _ _ => false) true (.error ())).trace ∧
      stt.globalStep = 1) ∨
    (1 % (⟨1, 3, 1⟩ : Args).log_every = 0 ∧
      ∀ b2, Ev.summary 0 b2 1 ∉ (train ⟨1, 3, 1⟩ 2 (fun _ _ => false) true (.error ())).trace) :=
  (C7_amended_save_policy ⟨1, 3, 1⟩ 2 (fun _ _ => false) true (.error ())).1 0 0 1
    (by decide) (by decide)

/-- C9: every evaluation of the merged summary pulls one additional batch
from the dataset iterator and logs the loss of that fresh batch at the
step that triggered it: the extra batch never receives an optimizer step
in its epoch, so it gets no parameter update and no global_step
increment, and the logged loss is not the loss of the batch the training
step at that step consumed. -/
theorem C9_summary_consumes_untrained_batch (A : Args) (nb : Nat)
    (intr : Nat → Nat → Bool) (dirExists : Bool) (restore : Except Unit Sess)
    (e b st : Nat)
    (h : Ev.summary e b st ∈ (train A nb intr dirExists restore).trace) :
    Ev.trainStep e (b - 1) st ∈ (train A nb intr dirExists restore).trace ∧
    st % A.log_every = 0 ∧
    ∀ st2, Ev.trainStep e b st2 ∉ (train A nb intr dirExists restore).trace := by
  have h2 : Ev.summary e b st ∈ (restorePhase dirExists restore).1 ++
      (epochsLoop A nb intr A.epochs 0 (restorePhase dirExists restore).2).1 := h
  rcases List.mem_append.mp h2 with h1 | h1
  · rcases restorePhase_mem dirExists restore _ h1 with he | he | he | ⟨tg, he⟩ <;> cases he
  · obtain ⟨hpair, hmod, huniq⟩ := epochsLoop_summary_pair A nb intr A.epochs 0
      (restorePhase dirExists restore).2 e b st h1
    refine ⟨?_, hmod, ?_⟩
    · show Ev.trainStep e (b - 1) st ∈ (restorePhase dirExists restore).1 ++
        (epochsLoop A nb intr A.epochs 0 (restorePhase dirExists restore).2).1
      exact List.mem_append.mpr (Or.inr hpair)
    · intro st2 hq
      have hq2 : Ev.trainStep e b st2 ∈ (restorePhase dirExists restore).1 ++
          (epochsLoop A nb intr A.epochs 0 (restorePhase dirExists restore).2).1 := hq
      rcases List.mem_append.mp hq2 with h3 | h3
      · rcases restorePhase_mem dirExists restore _ h3 with he | he | he | ⟨tg, he⟩ <;>
          cases he
      · exact huniq st2 h3

/-- Witness for C9: with three batches and log_every 2, the summary at
step 2 consumes batch 2, which is never trained on. -/
theorem C9_summary_consumes_untrained_batch_witness :
    Ev.trainStep 0 1 2 ∈ (train ⟨1, 2, 5⟩ 3 (fun _ _ => false) true (.error ())).trace ∧
    2 % (⟨1, 2, 5⟩ : Args).log_every = 0 ∧
    ∀ st2, Ev.trainStep 0 2 st2 ∉ (train ⟨1, 2, 5⟩ 3 (fun _ _ => false) true (.error ())).trace :=
  C9_summary_consumes_untrained_batch ⟨1, 2, 5⟩ 3 (fun _ _ => false) true (.error ())
    0 2 2 (by decide)

end SelfDriving
